import Mathlib

/-!
Shallow embedding of the reactive-attribute engine of `reactivetools`
(`reactivetools/__init__.py`): wrapper validation (`Method.__init__`),
the one-time binding hook (`RA.__set_name__`), and the per-instance
read / write / delete operations (`RA.__get__`, `RA.__set__`,
`RA.__delete__`) together with the dependency-registry cascade they run.

The interpreter is fuel-indexed: the invalidation cascade recurses through
the per-type dependency registry, and a Method body re-enters the reader,
so execution is modelled as a `Nat`-fuelled function returning success,
a raised error, or fuel exhaustion.
-/

/-- Raw attribute values. -/
abbrev Val := Int

/-- Observable computation events: invoking a Thunk default, invoking a
Method default, and forcing a Thunk that was stored in a slot. -/
inductive Ev where
  | compThunk (name : String)
  | compMethod (name : String)
  | forceThunk (name : String)
deriving DecidableEq, Repr

/-- Runtime failure: reading or deleting an attribute that has no stored
value (and, for reads, no default); `AttributeError("Not set")` and the
`delattr` failure in the source. -/
inductive Err where
  | notSet
deriving DecidableEq, Repr

/-- Result of a fuel-indexed execution step: success, a raised error, or
fuel exhaustion. -/
inductive Out (α : Type) where
  | ok (a : α)
  | err (e : Err)
  | div
deriving DecidableEq, Repr

/-- Contents of an instance storage slot: a realized raw value, or an
unrealized `Thunk` awaiting forced realization. -/
inductive Stored where
  | raw (v : Val)
  | thunk (b : Val)
deriving DecidableEq, Repr

/-- Method bodies: the expression a derived attribute evaluates over the
owning instance; attribute reads go through the descriptor reader. -/
inductive Expr where
  | lit (n : Val)
  | attr (name : String)
  | add (e₁ e₂ : Expr)
deriving DecidableEq, Repr

/-- A declared default (`RA.default` with the `is_thunk` / `is_method`
flags): a raw value, a `Thunk` producing `b` when invoked, or a `Method`
whose body is `e`. -/
inductive Dflt where
  | rawD (v : Val)
  | thunkD (b : Val)
  | methodD (e : Expr)
deriving DecidableEq, Repr

/-- Per-instance state: the private storage slots (`"_$ " + name`) and the
`_ra_methods_autoset` set (absent set modelled as the empty list). -/
structure Inst where
  slots : String → Option Stored
  autoset : List String

/-- Per-type data: each attribute's declared default, and the dependency
registry `_ra_relationships` mapping a name to its dependents (an absent
entry is the empty list). -/
structure Cls where
  default : String → Option Dflt
  rels : String → List String

/-- `setattr(obj, private_name, s)`: store `s` in `a`'s slot. -/
def slotWrite (σ : Inst) (a : String) (s : Stored) : Inst :=
  ⟨fun n => if n = a then some s else σ.slots n, σ.autoset⟩

/-- `delattr(obj, private_name)` viewed as the slot removal itself. -/
def slotClear (σ : Inst) (a : String) : Inst :=
  ⟨fun n => if n = a then none else σ.slots n, σ.autoset⟩

/-- `obj._ra_methods_autoset.discard(a)`. -/
def autoDrop (σ : Inst) (a : String) : Inst :=
  ⟨σ.slots, σ.autoset.filter (fun m => m != a)⟩

/-- `obj._ra_methods_autoset.add(a)` (set-style: no duplicate entry). -/
def autoAdd (σ : Inst) (a : String) : Inst :=
  ⟨σ.slots, if a ∈ σ.autoset then σ.autoset else a :: σ.autoset⟩

mutual

/-- `RA.__get__(obj)` on an instance, translated line by line: a set slot
is returned (forcing a stored Thunk first); an unset slot realizes the
declared default — erroring when there is none, invoking a Thunk with no
autoset marking, invoking a Method and then marking the name autoset, or
storing a raw default. -/
def ra_get (fuel : Nat) (C : Cls) (σ : Inst) (a : String) :
    Out (Val × Inst × List Ev) :=
  match fuel with
  | 0 => .div
  | f + 1 =>
    match σ.slots a with
    | none =>
      match C.default a with
      | none => .err .notSet
      | some (.rawD v) => .ok (v, slotWrite σ a (.raw v), [])
      | some (.thunkD b) => .ok (b, slotWrite σ a (.raw b), [.compThunk a])
      | some (.methodD e) =>
        match evalE f C σ e with
        | .ok (v, σ₁, evs) =>
          .ok (v, autoAdd (slotWrite σ₁ a (.raw v)) a, .compMethod a :: evs)
        | .err er => .err er
        | .div => .div
    | some (.thunk b) => .ok (b, slotWrite σ a (.raw b), [.forceThunk a])
    | some (.raw v) => .ok (v, σ, [])
termination_by structural fuel

/-- Evaluation of a Method body over the instance; attribute reads re-enter
`ra_get` exactly as `getattr` re-enters the descriptor in the source. -/
def evalE (fuel : Nat) (C : Cls) (σ : Inst) (e : Expr) :
    Out (Val × Inst × List Ev) :=
  match fuel with
  | 0 => .div
  | f + 1 =>
    match e with
    | .lit n => .ok (n, σ, [])
    | .attr a => ra_get f C σ a
    | .add e₁ e₂ =>
      match evalE f C σ e₁ with
      | .ok (v₁, σ₁, evs₁) =>
        match evalE f C σ₁ e₂ with
        | .ok (v₂, σ₂, evs₂) => .ok (v₁ + v₂, σ₂, evs₁ ++ evs₂)
        | .err er => .err er
        | .div => .div
      | .err er => .err er
      | .div => .div
termination_by structural fuel

end

mutual

/-- `RA.__delete__(obj)`: remove the slot (`NotSetError` when it is unset),
discard the name from the autoset set, then run the invalidation cascade
over the registry entry for this name. -/
def ra_delete (fuel : Nat) (C : Cls) (σ : Inst) (a : String) : Out Inst :=
  match fuel with
  | 0 => .div
  | f + 1 =>
    match σ.slots a with
    | none => .err .notSet
    | some _ => ra_cascade f C (autoDrop (slotClear σ a) a) (C.rels a)
termination_by structural fuel

/-- The cascade loop shared by `RA.__set__` and `RA.__delete__`: for each
dependent in the registry entry, if it is currently in the autoset set,
delete it through its own delete logic (no exception handler). -/
def ra_cascade (fuel : Nat) (C : Cls) (σ : Inst) (ds : List String) :
    Out Inst :=
  match fuel with
  | 0 => .div
  | f + 1 =>
    match ds with
    | [] => .ok σ
    | d :: ds' =>
      if d ∈ σ.autoset then
        match ra_delete f C σ d with
        | .ok σ₁ => ra_cascade f C σ₁ ds'
        | .err er => .err er
        | .div => .div
      else ra_cascade f C σ ds'
termination_by structural fuel

end

/-- `RA.__set__(obj, value)`: store the raw value or Thunk, discard the
name from the autoset set, then run the invalidation cascade over the
registry entry for this name. -/
def ra_set (fuel : Nat) (C : Cls) (σ : Inst) (a : String) (s : Stored) :
    Out Inst :=
  match fuel with
  | 0 => .div
  | f + 1 => ra_cascade f C (autoDrop (slotWrite σ a s) a) (C.rels a)

/-- Insert `n` into the registry entry for `key`, creating the entry when
absent (`owner._ra_relationships[key].add(n)` with the preceding
`= set()` initialization). -/
def relAdd (rels : String → List String) (key n : String) :
    String → List String :=
  fun k =>
    if k = key then (if n ∈ rels key then rels key else rels key ++ [n])
    else rels k

/-- The dependency-registration loop of `RA.__set_name__`: walk the
declared dependencies in order; a dependency whose name equals the
attribute's own name raises (`CyclicSelfReferenceError`), otherwise the
attribute's name is inserted into the registry entry for that dependency. -/
def ra_set_name (name : String) (rels : String → List String) :
    List String → Except Unit (String → List String)
  | [] => .ok rels
  | d :: ds =>
    if d = name then .error ()
    else ra_set_name name (relAdd rels d name) ds

/-- A formal parameter of a wrapped callable, as seen by
`inspect.signature`: its name and whether it carries a default. -/
structure Param where
  name : String
  has_default : Bool
deriving DecidableEq, Repr

/-- `Method.__init__(fn)`: reject a non-callable, an empty parameter list,
a first parameter not named `self` or carrying a default, or any later
parameter lacking a default; on success the callable is stored unchanged
(pure validation, no other effect). -/
def methodInit {α : Type} (is_callable : Bool) (ps : List Param) (fn : α) :
    Except Unit α :=
  if is_callable = false then .error ()
  else
    match ps with
    | [] => .error ()
    | p :: rest =>
      if p.name ≠ "self" then .error ()
      else if p.has_default then .error ()
      else if rest.any (fun q => !q.has_default) then .error ()
      else .ok fn

/-- The per-instance invariant of the engine: every name in the autoset
set has a set storage slot. -/
def AutoInv (σ : Inst) : Prop :=
  ∀ n ∈ σ.autoset, σ.slots n ≠ none

/-- State-transition facts a successful read preserves: raw slots keep
their value, set slots stay set, fresh autoset members have a set slot,
and a set-slot name outside the autoset set stays outside. -/
def GetOK (σ σ' : Inst) : Prop :=
  (∀ n v, σ.slots n = some (.raw v) → σ'.slots n = some (.raw v)) ∧
  (∀ n, σ.slots n ≠ none → σ'.slots n ≠ none) ∧
  (∀ n, n ∈ σ'.autoset → n ∈ σ.autoset ∨ σ'.slots n ≠ none) ∧
  (∀ n, σ.slots n ≠ none → n ∉ σ.autoset → n ∉ σ'.autoset)

/-- Facts a successful cascade run guarantees relative to its entry state:
surviving autoset members kept their slot values; every slot is either
untouched or removed together with its autoset membership; names outside
the autoset set are wholly untouched; a name that left the autoset set had
its slot removed; and every listed dependent that was autoset at entry
ends with no slot and no membership. -/
def CasOK (σ σ' : Inst) (ds : List String) : Prop :=
  (∀ n, n ∈ σ'.autoset → n ∈ σ.autoset ∧ σ'.slots n = σ.slots n) ∧
  (∀ n, σ'.slots n = σ.slots n ∨ (σ'.slots n = none ∧ n ∉ σ'.autoset)) ∧
  (∀ n, n ∉ σ.autoset → σ'.slots n = σ.slots n ∧ n ∉ σ'.autoset) ∧
  (∀ n, n ∈ σ.autoset → n ∉ σ'.autoset → σ'.slots n = none) ∧
  (∀ d, d ∈ ds → d ∈ σ.autoset → σ'.slots d = none ∧ d ∉ σ'.autoset)

/-- Facts a successful delete guarantees: the target's slot and autoset
membership are gone, the cascade facts hold (non-autoset names other than
the target untouched), and every registered dependent that was autoset at
entry is invalidated. -/
def DelOK (C : Cls) (σ σ' : Inst) (a : String) : Prop :=
  σ'.slots a = none ∧ a ∉ σ'.autoset ∧
  (∀ n, n ∈ σ'.autoset → n ∈ σ.autoset ∧ σ'.slots n = σ.slots n) ∧
  (∀ n, σ'.slots n = σ.slots n ∨ (σ'.slots n = none ∧ n ∉ σ'.autoset)) ∧
  (∀ n, n ≠ a → n ∉ σ.autoset → σ'.slots n = σ.slots n ∧ n ∉ σ'.autoset) ∧
  (∀ n, n ∈ σ.autoset → n ∉ σ'.autoset → σ'.slots n = none) ∧
  (∀ d, d ∈ C.rels a → d ∈ σ.autoset → σ'.slots d = none ∧ d ∉ σ'.autoset)

/-- Facts a successful write guarantees: the written slot holds the new
value and the name has left the autoset set; surviving autoset members are
distinct from the target and untouched; names other than the target outside
the autoset set are untouched; every registered dependent (other than the
target) that was autoset at entry is invalidated. -/
def SetOK (C : Cls) (σ σ' : Inst) (a : String) (s : Stored) : Prop :=
  σ'.slots a = some s ∧ a ∉ σ'.autoset ∧
  (∀ n, n ∈ σ'.autoset → n ∈ σ.autoset ∧ n ≠ a ∧ σ'.slots n = σ.slots n) ∧
  (∀ n, n ≠ a → n ∉ σ.autoset → σ'.slots n = σ.slots n ∧ n ∉ σ'.autoset) ∧
  (∀ d, d ∈ C.rels a → d ≠ a → d ∈ σ.autoset →
    σ'.slots d = none ∧ d ∉ σ'.autoset)

/-- Demo type: `D` is Method-backed reading `A`, registered as dependent of
`A`; `t` has a Thunk default; `r` a raw default; everything else none. -/
def demoC : Cls :=
  ⟨fun n =>
    if n = "D" then some (.methodD (.attr "A"))
    else if n = "t" then some (.thunkD 5)
    else if n = "r" then some (.rawD 3)
    else none,
   fun n => if n = "A" then ["D"] else []⟩

/-- Demo instance: `A` and `D` realized raw, `D` marked autoset. -/
def demoσ : Inst :=
  ⟨fun n => if n = "A" then some (.raw 1)
    else if n = "D" then some (.raw 1) else none, ["D"]⟩

/-- Demo instance with only `A` realized and nothing autoset. -/
def demoσu : Inst :=
  ⟨fun n => if n = "A" then some (.raw 1) else none, []⟩

/-- State after writing `A := 2` on `demoσ` (dependent `D` invalidated). -/
def demoσ' : Inst :=
  ⟨fun n => if n = "D" then none
    else if n = "A" then some (.raw 2) else demoσ.slots n, []⟩

/-- State after explicitly writing `D := 9` on `demoσ`. -/
def demoσD : Inst :=
  ⟨fun n => if n = "D" then some (.raw 9) else demoσ.slots n, []⟩

/-- State after deleting `A` on `demoσ` (dependent `D` invalidated). -/
def demoσdel : Inst :=
  ⟨fun n => if n = "D" then none
    else if n = "A" then none else demoσ.slots n, []⟩

/-- State after rewriting `A := 1` (its current value) on `demoσ`. -/
def demoσsame : Inst :=
  ⟨fun n => if n = "D" then none
    else if n = "A" then some (.raw 1) else demoσ.slots n, []⟩

/-- Registry after binding attribute `x` with declared dependency `y` over
an empty registry. -/
def demoRels : String → List String :=
  relAdd (fun _ => []) "y" "x"

/-- Scenario type of the spec: `x` is Method-backed computing
`self.normal + self.int`, registered as dependent of `int`. -/
def scenC : Cls :=
  ⟨fun n =>
    if n = "x" then some (.methodD (.add (.attr "normal") (.attr "int")))
    else none,
   fun n => if n = "int" then ["x"] else []⟩

/-- Scenario instance: `normal = 13` realized, `int` an unrealized Thunk
producing 12, `x` unset. -/
def scenσ : Inst :=
  ⟨fun n => if n = "normal" then some (.raw 13)
    else if n = "int" then some (.thunk 12) else none, []⟩

theorem autoDrop_slots (σ : Inst) (a : String) : (autoDrop σ a).slots = σ.slots :=
  rfl

theorem autoAdd_slots (σ : Inst) (a : String) : (autoAdd σ a).slots = σ.slots :=
  rfl

theorem slotWrite_autoset (σ : Inst) (a : String) (s : Stored) :
    (slotWrite σ a s).autoset = σ.autoset :=
  rfl

theorem slotClear_autoset (σ : Inst) (a : String) :
    (slotClear σ a).autoset = σ.autoset :=
  rfl

theorem slotWrite_slots (σ : Inst) (a : String) (s : Stored) (n : String) :
    (slotWrite σ a s).slots n = if n = a then some s else σ.slots n :=
  rfl

theorem slotClear_slots (σ : Inst) (a : String) (n : String) :
    (slotClear σ a).slots n = if n = a then none else σ.slots n :=
  rfl

theorem mem_autoDrop {σ : Inst} {a n : String} :
    n ∈ (autoDrop σ a).autoset ↔ n ∈ σ.autoset ∧ n ≠ a := by
  simp [autoDrop, List.mem_filter]

theorem mem_autoAdd {σ : Inst} {a n : String} :
    n ∈ (autoAdd σ a).autoset ↔ n ∈ σ.autoset ∨ n = a := by
  by_cases h : a ∈ σ.autoset
  · simp only [autoAdd, if_pos h]
    constructor
    · exact fun hn => Or.inl hn
    · rintro (hn | rfl) <;> [exact hn; exact h]
  · simp only [autoAdd, if_neg h, List.mem_cons]
    tauto

theorem getOK_refl (σ : Inst) : GetOK σ σ :=
  ⟨fun _ _ h => h, fun _ h => h, fun _ h => Or.inl h, fun _ _ h => h⟩

theorem getOK_trans {σ σ₁ σ₂ : Inst} (h₁ : GetOK σ σ₁) (h₂ : GetOK σ₁ σ₂) :
    GetOK σ σ₂ := by
  obtain ⟨a₁, b₁, c₁, d₁⟩ := h₁
  obtain ⟨a₂, b₂, c₂, d₂⟩ := h₂
  refine ⟨fun n v h => a₂ n v (a₁ n v h), fun n h => b₂ n (b₁ n h), ?_, ?_⟩
  · intro n hmem
    rcases c₂ n hmem with h | h
    · rcases c₁ n h with h' | h'
      · exact Or.inl h'
      · exact Or.inr (b₂ n h')
    · exact Or.inr h
  · intro n hset hout
    exact d₂ n (b₁ n hset) (d₁ n hset hout)

theorem getOK_slotWrite_notraw {σ : Inst} {a : String} {s : Stored}
    (h : ∀ w, σ.slots a ≠ some (.raw w)) : GetOK σ (slotWrite σ a s) := by
  refine ⟨?_, ?_, ?_, ?_⟩
  · intro n v hn
    have hna : n ≠ a := fun he => h v (he ▸ hn)
    simpa [slotWrite_slots, hna] using hn
  · intro n hn
    by_cases hna : n = a
    · simp [slotWrite_slots, hna]
    · simp only [slotWrite_slots, if_neg hna]
      exact hn
  · intro n hmem
    exact Or.inl hmem
  · intro n _ hout
    exact hout

theorem getOK_method_step {σ σ₁ : Inst} {a : String} {v : Val}
    (hnone : σ.slots a = none) (h₁ : GetOK σ σ₁) :
    GetOK σ (autoAdd (slotWrite σ₁ a (.raw v)) a) := by
  obtain ⟨a₁, b₁, c₁, d₁⟩ := h₁
  refine ⟨?_, ?_, ?_, ?_⟩
  · intro n w hn
    have hna : n ≠ a := fun he => by rw [he, hnone] at hn; exact Option.noConfusion hn
    have := a₁ n w hn
    simp only [autoAdd_slots, slotWrite_slots, if_neg hna]
    exact this
  · intro n hn
    by_cases hna : n = a
    · simp [autoAdd_slots, slotWrite_slots, hna]
    · simp only [autoAdd_slots, slotWrite_slots, if_neg hna]
      exact b₁ n hn
  · intro n hmem
    rw [mem_autoAdd, slotWrite_autoset] at hmem
    rcases hmem with hmem | rfl
    · rcases c₁ n hmem with hin | hset
      · exact Or.inl hin
      · refine Or.inr ?_
        by_cases hna : n = a
        · simp [autoAdd_slots, slotWrite_slots, hna]
        · simp only [autoAdd_slots, slotWrite_slots, if_neg hna]
          exact hset
    · refine Or.inr ?_
      simp [autoAdd_slots, slotWrite_slots]
  · intro n hset hout
    have hna : n ≠ a := fun he => by rw [he, hnone] at hset; exact hset rfl
    rw [mem_autoAdd, slotWrite_autoset]
    push_neg
    exact ⟨d₁ n hset hout, hna⟩

theorem get_eval_master (fuel : Nat) (C : Cls) :
    (∀ σ a r σ' evs, ra_get fuel C σ a = .ok (r, σ', evs) → GetOK σ σ') ∧
    (∀ σ e r σ' evs, evalE fuel C σ e = .ok (r, σ', evs) → GetOK σ σ') := by
  induction fuel with
  | zero =>
    constructor
    · intro σ a r σ' evs h
      simp [ra_get] at h
    · intro σ e r σ' evs h
      simp [evalE] at h
  | succ f ih =>
    obtain ⟨ihg, ihe⟩ := ih
    constructor
    · intro σ a r σ' evs h
      cases hs : σ.slots a with
      | none =>
        cases hd : C.default a with
        | none => simp [ra_get, hs, hd] at h
        | some dflt =>
          cases dflt with
          | rawD v =>
            simp [ra_get, hs, hd] at h
            obtain ⟨h1, h2, h3⟩ := h
            subst h2
            exact getOK_slotWrite_notraw (fun w hw => by simp [hs] at hw)
          | thunkD b =>
            simp [ra_get, hs, hd] at h
            obtain ⟨h1, h2, h3⟩ := h
            subst h2
            exact getOK_slotWrite_notraw (fun w hw => by simp [hs] at hw)
          | methodD e =>
            cases he : evalE f C σ e with
            | ok t =>
              obtain ⟨v, σ₁, evs₁⟩ := t
              simp [ra_get, hs, hd, he] at h
              obtain ⟨h1, h2, h3⟩ := h
              subst h2
              exact getOK_method_step hs (ihe σ e v σ₁ evs₁ he)
            | err er => simp [ra_get, hs, hd, he] at h
            | div => simp [ra_get, hs, hd, he] at h
      | some st =>
        cases st with
        | thunk b =>
          simp [ra_get, hs] at h
          obtain ⟨h1, h2, h3⟩ := h
          subst h2
          exact getOK_slotWrite_notraw (fun w hw => by simp [hs] at hw)
        | raw v =>
          simp [ra_get, hs] at h
          obtain ⟨h1, h2, h3⟩ := h
          subst h2
          exact getOK_refl σ
    · intro σ e r σ' evs h
      cases e with
      | lit n =>
        simp [evalE] at h
        obtain ⟨h1, h2, h3⟩ := h
        subst h2
        exact getOK_refl σ
      | attr a =>
        simp only [evalE] at h
        exact ihg σ a r σ' evs h
      | add e₁ e₂ =>
        cases h1 : evalE f C σ e₁ with
        | ok t₁ =>
          obtain ⟨v₁, σ₁, evs₁⟩ := t₁
          cases h2 : evalE f C σ₁ e₂ with
          | ok t₂ =>
            obtain ⟨v₂, σ₂, evs₂⟩ := t₂
            simp [evalE, h1, h2] at h
            obtain ⟨ha, hb, hc⟩ := h
            subst hb
            exact getOK_trans (ihe σ e₁ v₁ σ₁ evs₁ h1) (ihe σ₁ e₂ v₂ σ₂ evs₂ h2)
          | err er => simp [evalE, h1, h2] at h
          | div => simp [evalE, h1, h2] at h
        | err er => simp [evalE, h1] at h
        | div => simp [evalE, h1] at h

theorem casOK_refl (σ : Inst) : CasOK σ σ [] :=
  ⟨fun _ h => ⟨h, rfl⟩, fun _ => Or.inl rfl, fun _ h => ⟨rfl, h⟩,
   fun _ h h' => absurd h h', fun d hd => absurd hd (List.not_mem_nil d)⟩

theorem casOK_skip {σ σ' : Inst} {d : String} {ds : List String}
    (hd : d ∉ σ.autoset) (h : CasOK σ σ' ds) : CasOK σ σ' (d :: ds) := by
  obtain ⟨c1, c2, c3, c4, c5⟩ := h
  refine ⟨c1, c2, c3, c4, ?_⟩
  intro d' hd' hmem
  rcases List.mem_cons.mp hd' with rfl | hd'
  · exact absurd hmem hd
  · exact c5 d' hd' hmem

theorem casOK_cons {C : Cls} {σ σ₁ σ' : Inst} {d : String} {ds : List String}
    (hd : d ∈ σ.autoset) (h₁ : DelOK C σ σ₁ d) (h₂ : CasOK σ₁ σ' ds) :
    CasOK σ σ' (d :: ds) := by
  obtain ⟨d1, d2, d3, d4, d5, d6, _⟩ := h₁
  obtain ⟨c1, c2, c3, c4, c5⟩ := h₂
  refine ⟨?_, ?_, ?_, ?_, ?_⟩
  · intro n hn
    obtain ⟨hn₁, he₁⟩ := c1 n hn
    obtain ⟨hn₀, he₀⟩ := d3 n hn₁
    exact ⟨hn₀, he₁.trans he₀⟩
  · intro n
    rcases c2 n with e2 | ⟨e2, hn'⟩
    · rcases d4 n with e1 | ⟨e1, hn₁⟩
      · exact Or.inl (e2.trans e1)
      · refine Or.inr ⟨e2.trans e1, fun hn => hn₁ (c1 n hn).1⟩
    · exact Or.inr ⟨e2, hn'⟩
  · intro n hn
    have hnd : n ≠ d := fun he => hn (he ▸ hd)
    obtain ⟨he₁, hm₁⟩ := d5 n hnd hn
    obtain ⟨he₂, hm₂⟩ := c3 n hm₁
    exact ⟨he₂.trans he₁, hm₂⟩
  · intro n hn hn'
    by_cases hn₁ : n ∈ σ₁.autoset
    · exact c4 n hn₁ hn'
    · have he₁ := d6 n hn hn₁
      obtain ⟨he₂, -⟩ := c3 n hn₁
      exact he₂.trans he₁
  · intro d' hd' hmem
    rcases List.mem_cons.mp hd' with rfl | hd'
    · obtain ⟨he₂, hm₂⟩ := c3 d' d2
      exact ⟨he₂.trans d1, hm₂⟩
    · by_cases hm₁ : d' ∈ σ₁.autoset
      · exact c5 d' hd' hm₁
      · have he₁ := d6 d' hmem hm₁
        obtain ⟨he₂, hm₂⟩ := c3 d' hm₁
        exact ⟨he₂.trans he₁, hm₂⟩

theorem delOK_build {C : Cls} {σ σ' : Inst} {a : String}
    (h : CasOK (autoDrop (slotClear σ a) a) σ' (C.rels a)) :
    DelOK C σ σ' a := by
  obtain ⟨c1, c2, c3, c4, c5⟩ := h
  have hmem₁ : ∀ n, n ∈ (autoDrop (slotClear σ a) a).autoset ↔
      n ∈ σ.autoset ∧ n ≠ a := by
    intro n
    rw [mem_autoDrop, slotClear_autoset]
  have hslots₁ : ∀ n, (autoDrop (slotClear σ a) a).slots n =
      if n = a then none else σ.slots n := by
    intro n
    rw [autoDrop_slots, slotClear_slots]
  have hanot : a ∉ (autoDrop (slotClear σ a) a).autoset := by
    rw [hmem₁]
    exact fun hc => hc.2 rfl
  obtain ⟨hea, hma⟩ := c3 a hanot
  have hsla : σ'.slots a = none := by
    rw [hea, hslots₁, if_pos rfl]
  refine ⟨hsla, hma, ?_, ?_, ?_, ?_, ?_⟩
  · intro n hn
    obtain ⟨hn₁, he₁⟩ := c1 n hn
    obtain ⟨hn₀, hna⟩ := (hmem₁ n).mp hn₁
    refine ⟨hn₀, ?_⟩
    rw [he₁, hslots₁, if_neg hna]
  · intro n
    by_cases hna : n = a
    · subst hna
      exact Or.inr ⟨hsla, hma⟩
    · rcases c2 n with e | ⟨e, hn'⟩
      · refine Or.inl ?_
        rw [e, hslots₁, if_neg hna]
      · exact Or.inr ⟨e, hn'⟩
  · intro n hna hn
    have hn₁ : n ∉ (autoDrop (slotClear σ a) a).autoset := by
      rw [hmem₁]
      exact fun hc => hn hc.1
    obtain ⟨he, hm⟩ := c3 n hn₁
    refine ⟨?_, hm⟩
    rw [he, hslots₁, if_neg hna]
  · intro n hn hn'
    by_cases hna : n = a
    · subst hna
      exact hsla
    · refine c4 n ?_ hn'
      rw [hmem₁]
      exact ⟨hn, hna⟩
  · intro d hd hmem
    by_cases hda : d = a
    · subst hda
      exact ⟨hsla, hma⟩
    · refine c5 d hd ?_
      rw [hmem₁]
      exact ⟨hmem, hda⟩

theorem delete_cascade_master (fuel : Nat) (C : Cls) :
    (∀ σ a σ', ra_delete fuel C σ a = .ok σ' → DelOK C σ σ' a) ∧
    (∀ σ ds σ', ra_cascade fuel C σ ds = .ok σ' → CasOK σ σ' ds) := by
  induction fuel with
  | zero =>
    constructor
    · intro σ a σ' h
      simp [ra_delete] at h
    · intro σ ds σ' h
      simp [ra_cascade] at h
  | succ f ih =>
    obtain ⟨ihd, ihc⟩ := ih
    constructor
    · intro σ a σ' h
      cases hs : σ.slots a with
      | none => simp [ra_delete, hs] at h
      | some st =>
        simp only [ra_delete, hs] at h
        exact delOK_build (ihc _ _ _ h)
    · intro σ ds σ' h
      cases ds with
      | nil =>
        simp [ra_cascade] at h
        subst h
        exact casOK_refl σ
      | cons d ds' =>
        by_cases hd : d ∈ σ.autoset
        · cases hdel : ra_delete f C σ d with
          | ok σ₁ =>
            simp only [ra_cascade, if_pos hd, hdel] at h
            exact casOK_cons hd (ihd _ _ _ hdel) (ihc _ _ _ h)
          | err er => simp [ra_cascade, hd, hdel] at h
          | div => simp [ra_cascade, hd, hdel] at h
        · simp only [ra_cascade, if_neg hd] at h
          exact casOK_skip hd (ihc _ _ _ h)

theorem autoInv_of_delOK {C : Cls} {σ σ' : Inst} {a : String}
    (h : DelOK C σ σ' a) (hI : AutoInv σ) : AutoInv σ' := by
  obtain ⟨-, -, c1, -, -, -, -⟩ := h
  intro n hn
  obtain ⟨hmem, heq⟩ := c1 n hn
  rw [heq]
  exact hI n hmem

theorem autoInv_of_getOK {σ σ' : Inst} (h : GetOK σ σ') (hI : AutoInv σ) :
    AutoInv σ' := by
  obtain ⟨-, b, c, -⟩ := h
  intro n hn
  rcases c n hn with hmem | hset
  · exact b n (hI n hmem)
  · exact hset

theorem delete_cascade_noerr (fuel : Nat) (C : Cls) :
    (∀ σ a e, AutoInv σ → σ.slots a ≠ none → ra_delete fuel C σ a ≠ .err e) ∧
    (∀ σ ds e, AutoInv σ → ra_cascade fuel C σ ds ≠ .err e) := by
  induction fuel with
  | zero =>
    constructor
    · intro σ a e _ _
      simp [ra_delete]
    · intro σ ds e _
      simp [ra_cascade]
  | succ f ih =>
    obtain ⟨ihd, ihc⟩ := ih
    constructor
    · intro σ a e hI hset
      cases hs : σ.slots a with
      | none => exact absurd hs hset
      | some st =>
        simp only [ra_delete, hs]
        apply ihc
        intro n hn
        rw [mem_autoDrop, slotClear_autoset] at hn
        obtain ⟨hn', hna⟩ := hn
        show (autoDrop (slotClear σ a) a).slots n ≠ none
        rw [autoDrop_slots, slotClear_slots, if_neg hna]
        exact hI n hn'
    · intro σ ds e hI
      cases ds with
      | nil => simp [ra_cascade]
      | cons d ds' =>
        by_cases hd : d ∈ σ.autoset
        · cases hdel : ra_delete f C σ d with
          | ok σ₁ =>
            simp only [ra_cascade, if_pos hd, hdel]
            exact ihc σ₁ ds' e
              (autoInv_of_delOK ((delete_cascade_master f C).1 _ _ _ hdel) hI)
          | err er => exact absurd hdel (ihd σ d er hI (hI d hd))
          | div => simp [ra_cascade, hd, hdel]
        · simp only [ra_cascade, if_neg hd]
          exact ihc σ ds' e hI

theorem set_master {fuel : Nat} {C : Cls} {σ σ' : Inst} {a : String}
    {s : Stored} (h : ra_set fuel C σ a s = .ok σ') : SetOK C σ σ' a s := by
  cases fuel with
  | zero => simp [ra_set] at h
  | succ f =>
    simp only [ra_set] at h
    obtain ⟨c1, c2, c3, c4, c5⟩ := (delete_cascade_master f C).2 _ _ _ h
    have hmem₁ : ∀ n, n ∈ (autoDrop (slotWrite σ a s) a).autoset ↔
        n ∈ σ.autoset ∧ n ≠ a := by
      intro n
      rw [mem_autoDrop, slotWrite_autoset]
    have hslots₁ : ∀ n, (autoDrop (slotWrite σ a s) a).slots n =
        if n = a then some s else σ.slots n := by
      intro n
      rw [autoDrop_slots, slotWrite_slots]
    have hanot : a ∉ (autoDrop (slotWrite σ a s) a).autoset := by
      rw [hmem₁]
      exact fun hc => hc.2 rfl
    obtain ⟨hea, hma⟩ := c3 a hanot
    have hsla : σ'.slots a = some s := by
      rw [hea, hslots₁, if_pos rfl]
    refine ⟨hsla, hma, ?_, ?_, ?_⟩
    · intro n hn
      obtain ⟨hn₁, he₁⟩ := c1 n hn
      obtain ⟨hn₀, hna⟩ := (hmem₁ n).mp hn₁
      refine ⟨hn₀, hna, ?_⟩
      rw [he₁, hslots₁, if_neg hna]
    · intro n hna hn
      have hn₁ : n ∉ (autoDrop (slotWrite σ a s) a).autoset := by
        rw [hmem₁]
        exact fun hc => hn hc.1
      obtain ⟨he, hm⟩ := c3 n hn₁
      refine ⟨?_, hm⟩
      rw [he, hslots₁, if_neg hna]
    · intro d hd hda hmem
      refine c5 d hd ?_
      rw [hmem₁]
      exact ⟨hmem, hda⟩

theorem set_noerr {fuel : Nat} {C : Cls} {σ : Inst} {a : String} {s : Stored}
    {e : Err} (hI : AutoInv σ) : ra_set fuel C σ a s ≠ .err e := by
  cases fuel with
  | zero => simp [ra_set]
  | succ f =>
    simp only [ra_set]
    apply (delete_cascade_noerr f C).2
    intro n hn
    rw [mem_autoDrop, slotWrite_autoset] at hn
    obtain ⟨hn', hna⟩ := hn
    show (autoDrop (slotWrite σ a s) a).slots n ≠ none
    rw [autoDrop_slots, slotWrite_slots, if_neg hna]
    exact hI n hn'

theorem autoInv_of_setOK {C : Cls} {σ σ' : Inst} {a : String} {s : Stored}
    (h : SetOK C σ σ' a s) (hI : AutoInv σ) : AutoInv σ' := by
  obtain ⟨-, -, c1, -, -⟩ := h
  intro n hn
  obtain ⟨hmem, -, heq⟩ := c1 n hn
  rw [heq]
  exact hI n hmem

theorem relAdd_mem_self (rels : String → List String) (d n : String) :
    n ∈ relAdd rels d n d := by
  unfold relAdd
  rw [if_pos rfl]
  by_cases h : n ∈ rels d
  · rw [if_pos h]
    exact h
  · rw [if_neg h]
    exact List.mem_append_right _ (List.mem_singleton.mpr rfl)

theorem relAdd_mem_mono (rels : String → List String) (d n : String)
    {k m : String} (h : m ∈ rels k) : m ∈ relAdd rels d n k := by
  unfold relAdd
  by_cases hk : k = d
  · subst hk
    rw [if_pos rfl]
    by_cases hn : n ∈ rels k
    · rw [if_pos hn]
      exact h
    · rw [if_neg hn]
      exact List.mem_append_left _ h
  · rw [if_neg hk]
    exact h

theorem relAdd_other (rels : String → List String) (d n : String)
    {k : String} (h : k ≠ d) : relAdd rels d n k = rels k := by
  unfold relAdd
  rw [if_neg h]

theorem ra_set_name_mono (deps : List String) (name : String)
    (rels : String → List String) (r' : String → List String)
    (h : ra_set_name name rels deps = .ok r') :
    ∀ k m, m ∈ rels k → m ∈ r' k := by
  induction deps generalizing rels with
  | nil =>
    simp [ra_set_name] at h
    subst h
    exact fun k m hm => hm
  | cons d ds ih =>
    by_cases hd : d = name
    · simp [ra_set_name, hd] at h
    · rw [ra_set_name, if_neg hd] at h
      intro k m hm
      exact ih (relAdd rels d name) h k m (relAdd_mem_mono rels d name hm)

theorem ra_set_name_err (deps : List String) (name : String)
    (rels : String → List String) :
    ra_set_name name rels deps = .error () ↔ name ∈ deps := by
  induction deps generalizing rels with
  | nil => simp [ra_set_name]
  | cons d ds ih =>
    by_cases hd : d = name
    · simp [ra_set_name, hd]
    · rw [ra_set_name, if_neg hd]
      rw [ih (relAdd rels d name)]
      simp [List.mem_cons]
      intro he
      exact absurd he.symm hd

theorem ra_set_name_ok (deps : List String) (name : String)
    (rels : String → List String) (r' : String → List String)
    (h : ra_set_name name rels deps = .ok r') :
    (∀ d ∈ deps, name ∈ r' d) ∧ (∀ k, k ∉ deps → r' k = rels k) := by
  induction deps generalizing rels with
  | nil =>
    simp [ra_set_name] at h
    subst h
    exact ⟨fun d hd => absurd hd (List.not_mem_nil d), fun _ _ => rfl⟩
  | cons d ds ih =>
    by_cases hd : d = name
    · simp [ra_set_name, hd] at h
    · rw [ra_set_name, if_neg hd] at h
      obtain ⟨ih1, ih2⟩ := ih (relAdd rels d name) h
      constructor
      · intro d' hd'
        rcases List.mem_cons.mp hd' with rfl | hd'
        · exact ra_set_name_mono ds name _ r' h d' name (relAdd_mem_self rels d' name)
        · exact ih1 d' hd'
      · intro k hk
        have hkd : k ≠ d := fun he => hk (he ▸ List.mem_cons_self d ds)
        have hkds : k ∉ ds := fun he => hk (List.mem_cons_of_mem d he)
        rw [ih2 k hkds, relAdd_other rels d name hkd]

theorem methodInit_err_iff {α : Type} (c : Bool) (ps : List Param) (fn : α) :
    methodInit c ps fn = .error () ↔
      c = false ∨ ps = [] ∨
        ∃ p rest, ps = p :: rest ∧
          (p.name ≠ "self" ∨ p.has_default = true ∨
            ∃ q ∈ rest, q.has_default = false) := by
  cases c with
  | false => simp [methodInit]
  | true =>
    cases ps with
    | nil => simp [methodInit]
    | cons p rest =>
      constructor
      · intro h
        by_cases h1 : p.name = "self"
        · by_cases h2 : p.has_default
          · exact Or.inr (Or.inr ⟨p, rest, rfl, Or.inr (Or.inl h2)⟩)
          · cases h3 : rest.any (fun q => !q.has_default) with
            | true =>
              obtain ⟨q, hq, hqd⟩ := List.any_eq_true.mp h3
              exact Or.inr (Or.inr ⟨p, rest, rfl,
                Or.inr (Or.inr ⟨q, hq, by simpa using hqd⟩)⟩)
            | false => simp [methodInit, h1, h2, h3] at h
        · exact Or.inr (Or.inr ⟨p, rest, rfl, Or.inl h1⟩)
      · rintro (hc | hps | ⟨p', rest', heq, hcase⟩)
        · simp at hc
        · simp at hps
        · injection heq with heqp heqr
          subst heqp
          subst heqr
          rcases hcase with hn | hd | ⟨q, hq, hqd⟩
          · simp [methodInit, hn]
          · simp [methodInit, hd]
          · have h3 : rest.any (fun q => !q.has_default) = true :=
              List.any_eq_true.mpr ⟨q, hq, by simpa using hqd⟩
            simp [methodInit, h3]

theorem methodInit_ok_val {α : Type} (c : Bool) (ps : List Param) (fn g : α)
    (h : methodInit c ps fn = .ok g) : g = fn := by
  cases c with
  | false => simp [methodInit] at h
  | true =>
    cases ps with
    | nil => simp [methodInit] at h
    | cons p rest =>
      by_cases h1 : p.name = "self"
      · by_cases h2 : p.has_default
        · simp [methodInit, h1, h2] at h
        · cases h3 : rest.any (fun q => !q.has_default) with
          | true => simp [methodInit, h1, h2, h3] at h
          | false =>
            simp [methodInit, h1, h2, h3] at h
            exact h.symm
      · simp [methodInit, h1] at h

/-- Claim C1: with `D` a Method-backed registered dependent of `A`, a
successful write of a raw value to `A` removes `D`'s slot and autoset
membership whenever `D` was autoset — so that `D`'s next successful read
re-invokes its Method (a method-computation event for `D` is logged) —
while if `D` was not autoset (explicitly written, or deleted and unset),
the write leaves `D`'s slot unchanged. -/
theorem claim_c1 (C : Cls) (σ σ' : Inst) (A D : String) (v : Val) (e : Expr)
    (f : Nat) (hDdflt : C.default D = some (.methodD e)) (hdep : D ∈ C.rels A)
    (hDA : D ≠ A) (hset : ra_set f C σ A (.raw v) = .ok σ') :
    (D ∈ σ.autoset →
      σ'.slots D = none ∧ D ∉ σ'.autoset ∧
      ∀ g r σ'' evs, ra_get g C σ' D = .ok (r, σ'', evs) →
        Ev.compMethod D ∈ evs) ∧
    (D ∉ σ.autoset → σ'.slots D = σ.slots D) := by
  obtain ⟨s1, s2, s3, s4, s5⟩ := set_master hset
  constructor
  · intro hmem
    obtain ⟨hnone, hout⟩ := s5 D hdep hDA hmem
    refine ⟨hnone, hout, ?_⟩
    intro g r σ'' evs hg
    cases g with
    | zero => simp [ra_get] at hg
    | succ g' =>
      cases he : evalE g' C σ' e with
      | ok t =>
        obtain ⟨v', σ₁, evs₁⟩ := t
        simp [ra_get, hnone, hDdflt, he] at hg
        obtain ⟨-, -, hevs⟩ := hg
        rw [← hevs]
        exact List.mem_cons_self _ _
      | err er => simp [ra_get, hnone, hDdflt, he] at hg
      | div => simp [ra_get, hnone, hDdflt, he] at hg
  · intro hnot
    exact (s4 D hDA hnot).1

/-- Witness for C1: writing `A := 2` on the demo instance (where `D` is
autoset) removes `D`'s slot and membership. -/
theorem claim_c1_witness :
    "D" ∈ demoσ.autoset ∧ ra_set 10 demoC demoσ "A" (.raw 2) = .ok demoσ' ∧
    demoσ'.slots "D" = none ∧ "D" ∉ demoσ'.autoset := by
  have h := claim_c1 demoC demoσ demoσ' "A" "D" 2 (.attr "A") 10 rfl
    (by decide) (by decide) rfl
  have hm : "D" ∈ demoσ.autoset := by decide
  obtain ⟨h1, h2, -⟩ := h.1 hm
  exact ⟨hm, rfl, h1, h2⟩

/-- Claim C2: an explicit write to `D` stores the value with `D` removed
from the autoset set; and that configuration — the stored value and the
suppression of automatic invalidation — is preserved by every successful
write to another attribute, by every successful read, and by every
successful delete of another attribute, hence persists until `D` itself is
explicitly deleted or rewritten. -/
theorem claim_c2 (C : Cls) (D : String) (v : Val) :
    (∀ f σ σ₀, ra_set f C σ D (.raw v) = .ok σ₀ →
      σ₀.slots D = some (.raw v) ∧ D ∉ σ₀.autoset) ∧
    (∀ f σ σ' A s, A ≠ D → σ.slots D = some (.raw v) → D ∉ σ.autoset →
      ra_set f C σ A s = .ok σ' →
      σ'.slots D = some (.raw v) ∧ D ∉ σ'.autoset) ∧
    (∀ f σ σ' x r evs, σ.slots D = some (.raw v) → D ∉ σ.autoset →
      ra_get f C σ x = .ok (r, σ', evs) →
      σ'.slots D = some (.raw v) ∧ D ∉ σ'.autoset) ∧
    (∀ f σ σ' A, A ≠ D → σ.slots D = some (.raw v) → D ∉ σ.autoset →
      ra_delete f C σ A = .ok σ' →
      σ'.slots D = some (.raw v) ∧ D ∉ σ'.autoset) := by
  refine ⟨?_, ?_, ?_, ?_⟩
  · intro f σ σ₀ h
    obtain ⟨s1, s2, -, -, -⟩ := set_master h
    exact ⟨s1, s2⟩
  · intro f σ σ' A s hAD hslot hout h
    obtain ⟨-, -, -, s4, -⟩ := set_master h
    obtain ⟨he, hm⟩ := s4 D (Ne.symm hAD) hout
    exact ⟨hslot ▸ he, hm⟩
  · intro f σ σ' x r evs hslot hout h
    obtain ⟨g1, -, -, g4⟩ := (get_eval_master f C).1 _ _ _ _ _ h
    refine ⟨g1 D v hslot, g4 D ?_ hout⟩
    rw [hslot]
    exact fun hc => Option.noConfusion hc
  · intro f σ σ' A hAD hslot hout h
    obtain ⟨-, -, -, -, d5, -, -⟩ := (delete_cascade_master f C).1 _ _ _ h
    obtain ⟨he, hm⟩ := d5 D (Ne.symm hAD) hout
    exact ⟨hslot ▸ he, hm⟩

/-- Witness for C2: explicitly writing `D := 9` on the demo instance stores
the value and clears the autoset mark. -/
theorem claim_c2_witness :
    ra_set 10 demoC demoσ "D" (.raw 9) = .ok demoσD ∧
    demoσD.slots "D" = some (.raw 9) ∧ "D" ∉ demoσD.autoset := by
  have h := (claim_c2 demoC "D" 9).1 10 demoσ demoσD rfl
  exact ⟨rfl, h.1, h.2⟩

/-- Claim C3: reading an attribute whose slot holds a realized raw value
returns exactly that value with no computation event and an unchanged
state, at any nonzero fuel; hence two consecutive reads return the
identical value, the second invoking the default computation zero times
and leaving slots and autoset membership untouched. -/
theorem claim_c3 (C : Cls) (σ : Inst) (a : String) (v : Val) (f₁ f₂ : Nat)
    (h : σ.slots a = some (.raw v)) :
    ra_get (f₁ + 1) C σ a = .ok (v, σ, []) ∧
    ra_get (f₂ + 1) C σ a = .ok (v, σ, []) := by
  constructor
  · simp [ra_get, h]
  · simp [ra_get, h]

/-- Witness for C3: reading realized `A` twice on the demo instance. -/
theorem claim_c3_witness :
    demoσ.slots "A" = some (.raw 1) ∧
    ra_get 1 demoC demoσ "A" = .ok (1, demoσ, []) ∧
    ra_get 1 demoC demoσ "A" = .ok (1, demoσ, []) :=
  ⟨rfl, claim_c3 demoC demoσ "A" 1 0 0 rfl⟩

/-- Claim C4: reading an unset slot: with no default it fails with
NotSetError; with a Thunk default the thunk is invoked, the raw result
stored and returned and the autoset set left unchanged (no marking); with
a Method default the method is invoked with the instance, the raw result
stored and returned and the attribute marked autoset; with a raw default
the raw value is stored and returned. -/
theorem claim_c4 (C : Cls) (σ : Inst) (a : String) (f : Nat)
    (h : σ.slots a = none) :
    (C.default a = none → ra_get (f + 1) C σ a = .err .notSet) ∧
    (∀ b, C.default a = some (.thunkD b) →
      ra_get (f + 1) C σ a = .ok (b, slotWrite σ a (.raw b), [.compThunk a]) ∧
      (slotWrite σ a (.raw b)).slots a = some (.raw b) ∧
      (slotWrite σ a (.raw b)).autoset = σ.autoset) ∧
    (∀ e v σ₁ evs, C.default a = some (.methodD e) →
      evalE f C σ e = .ok (v, σ₁, evs) →
      ra_get (f + 1) C σ a =
        .ok (v, autoAdd (slotWrite σ₁ a (.raw v)) a, .compMethod a :: evs) ∧
      (autoAdd (slotWrite σ₁ a (.raw v)) a).slots a = some (.raw v) ∧
      a ∈ (autoAdd (slotWrite σ₁ a (.raw v)) a).autoset) ∧
    (∀ v, C.default a = some (.rawD v) →
      ra_get (f + 1) C σ a = .ok (v, slotWrite σ a (.raw v), []) ∧
      (slotWrite σ a (.raw v)).autoset = σ.autoset) := by
  refine ⟨?_, ?_, ?_, ?_⟩
  · intro hd
    simp [ra_get, h, hd]
  · intro b hd
    refine ⟨by simp [ra_get, h, hd], ?_, rfl⟩
    rw [slotWrite_slots, if_pos rfl]
  · intro e v σ₁ evs hd he
    refine ⟨by simp [ra_get, h, hd, he], ?_, ?_⟩
    · rw [autoAdd_slots, slotWrite_slots, if_pos rfl]
    · rw [mem_autoAdd]
      exact Or.inr rfl
  · intro v hd
    exact ⟨by simp [ra_get, h, hd], rfl⟩

/-- Witness for C4: reading unset `t` (Thunk default) on the demo instance
realizes 5, stores it, and does not mark `t` autoset. -/
theorem claim_c4_witness :
    demoσu.slots "t" = none ∧ demoC.default "t" = some (.thunkD 5) ∧
    ra_get 10 demoC demoσu "t" =
      .ok (5, slotWrite demoσu "t" (.raw 5), [.compThunk "t"]) ∧
    (slotWrite demoσu "t" (.raw 5)).autoset = demoσu.autoset := by
  have h := ((claim_c4 demoC demoσu "t" 9 rfl).2.1 5 rfl)
  exact ⟨rfl, rfl, h.1, h.2.2⟩

/-- Claim C5: deleting an attribute whose slot is unset fails with
NotSetError; a successful delete removes the slot (reverting to unset) and
the autoset membership, invalidates every registered dependent currently
autoset through that dependent's own delete logic, and — on an instance
satisfying the autoset invariant, as every reachable instance does — every
already-unset dependent is left unset and untouched while the cascade
never surfaces an error to the caller. -/
theorem claim_c5 (C : Cls) (σ : Inst) (a : String) (f : Nat) :
    (σ.slots a = none → ra_delete (f + 1) C σ a = .err .notSet) ∧
    (∀ σ', ra_delete f C σ a = .ok σ' →
      σ'.slots a = none ∧ a ∉ σ'.autoset ∧
      (∀ d, d ∈ C.rels a → d ∈ σ.autoset →
        σ'.slots d = none ∧ d ∉ σ'.autoset) ∧
      (AutoInv σ → ∀ d, d ≠ a → σ.slots d = none → σ'.slots d = none)) ∧
    (AutoInv σ → σ.slots a ≠ none → ∀ e, ra_delete f C σ a ≠ .err e) := by
  refine ⟨?_, ?_, ?_⟩
  · intro h
    simp [ra_delete, h]
  · intro σ' h
    obtain ⟨d1, d2, -, -, d5, -, d7⟩ := (delete_cascade_master f C).1 _ _ _ h
    refine ⟨d1, d2, d7, ?_⟩
    intro hI d hda hduns
    have hdout : d ∉ σ.autoset := fun hmem => hI d hmem hduns
    rw [(d5 d hda hdout).1]
    exact hduns
  · intro hI hset e
    exact (delete_cascade_noerr f C).1 σ a e hI hset

/-- Witness for C5: deleting realized `A` on the demo instance unsets `A`
and cascades into autoset dependent `D`. -/
theorem claim_c5_witness :
    ra_delete 10 demoC demoσ "A" = .ok demoσdel ∧
    demoσdel.slots "A" = none ∧ demoσdel.slots "D" = none ∧
    "D" ∉ demoσdel.autoset := by
  have h := (claim_c5 demoC demoσ "A" 10).2.1 demoσdel rfl
  obtain ⟨hk1, hk2⟩ := h.2.2.1 "D" (by decide) (by decide)
  exact ⟨rfl, h.1, hk1, hk2⟩

/-- Claim C7: the spec scenario — `normal = 13` realized raw, `int` an
unrealized Thunk producing 12, `x` Method-backed computing
`self.normal + self.int` and registered as dependent of `int`: the first
read of `x` logs exactly one method invocation of `x` (forcing `int`'s
stored Thunk along the way) and returns 25; a second read logs no
computation and returns 25; after writing `int := 13` the next read of `x`
invokes its Method again and returns 26. -/
theorem claim_c7 :
    ∃ σ₁ σ₂ σ₃,
      ra_get 10 scenC scenσ "x" =
        .ok (25, σ₁, [.compMethod "x", .forceThunk "int"]) ∧
      ra_get 10 scenC σ₁ "x" = .ok (25, σ₁, []) ∧
      ra_set 10 scenC σ₁ "int" (.raw 13) = .ok σ₂ ∧
      ra_get 10 scenC σ₂ "x" = .ok (26, σ₃, [.compMethod "x"]) :=
  ⟨_, _, _, rfl, rfl, rfl, rfl⟩

/-- Claim C9: the invariant "every autoset name has a set slot" is
preserved by every successful read, write and delete; and under it the
cascade never raises — a write never returns an error, and a delete whose
own slot is set never returns an error. -/
theorem claim_c9 (C : Cls) (σ : Inst) (f : Nat) (a x : String) (s : Stored) :
    (∀ r σ' evs, ra_get f C σ x = .ok (r, σ', evs) → AutoInv σ → AutoInv σ') ∧
    (∀ σ', ra_set f C σ a s = .ok σ' → AutoInv σ → AutoInv σ') ∧
    (∀ σ', ra_delete f C σ a = .ok σ' → AutoInv σ → AutoInv σ') ∧
    (AutoInv σ → ∀ e, ra_set f C σ a s ≠ .err e) ∧
    (AutoInv σ → σ.slots a ≠ none → ∀ e, ra_delete f C σ a ≠ .err e) := by
  refine ⟨?_, ?_, ?_, ?_, ?_⟩
  · intro r σ' evs h hI
    exact autoInv_of_getOK ((get_eval_master f C).1 _ _ _ _ _ h) hI
  · intro σ' h hI
    exact autoInv_of_setOK (set_master h) hI
  · intro σ' h hI
    exact autoInv_of_delOK ((delete_cascade_master f C).1 _ _ _ h) hI
  · intro hI e
    exact set_noerr hI
  · intro hI hset e
    exact (delete_cascade_noerr f C).1 σ a e hI hset

/-- Witness for C9: the demo instance satisfies the invariant, and it is
preserved across the concrete write `A := 2`. -/
theorem claim_c9_witness : AutoInv demoσ ∧ AutoInv demoσ' := by
  have hI : AutoInv demoσ := by
    intro n hn
    have hn' : n = "D" := by simpa [demoσ] using hn
    subst hn'
    simp [demoσ]
  exact ⟨hI, (claim_c9 demoC demoσ 10 "A" "A" (.raw 2)).2.1 demoσ' rfl hI⟩

/-- Claim C10: writing to `A` the very value its slot already holds still
clears `A`'s autoset membership and still invalidates every currently
autoset registered dependent — invalidation is triggered by the write
itself, never by comparing old and new values. -/
theorem claim_c10 (C : Cls) (σ σ' : Inst) (A : String) (v : Val) (f : Nat)
    (_hold : σ.slots A = some (.raw v))
    (hset : ra_set f C σ A (.raw v) = .ok σ') :
    σ'.slots A = some (.raw v) ∧ A ∉ σ'.autoset ∧
    ∀ D, D ∈ C.rels A → D ≠ A → D ∈ σ.autoset →
      σ'.slots D = none ∧ D ∉ σ'.autoset := by
  obtain ⟨s1, s2, -, -, s5⟩ := set_master hset
  exact ⟨s1, s2, s5⟩

/-- Witness for C10: rewriting `A := 1`, the value `A` already holds, still
invalidates the autoset dependent `D`. -/
theorem claim_c10_witness :
    demoσ.slots "A" = some (.raw 1) ∧
    ra_set 10 demoC demoσ "A" (.raw 1) = .ok demoσsame ∧
    demoσsame.slots "D" = none ∧ "D" ∉ demoσsame.autoset := by
  have h := claim_c10 demoC demoσ demoσsame "A" 1 10 rfl rfl
  obtain ⟨hk1, hk2⟩ := h.2.2 "D" (by decide) (by decide) (by decide)
  exact ⟨rfl, rfl, hk1, hk2⟩

/-- Claim C6: the binding-time dependency loop fails (the
CyclicSelfReference error) exactly when some declared dependency's name
equals the attribute's own name; on success the attribute's name has been
inserted into the registry entry of every declared dependency — the
registry defaulting to empty entries models its creation on first use —
and entries for all other keys are unchanged. -/
theorem claim_c6 (name : String) (rels : String → List String)
    (deps : List String) :
    (ra_set_name name rels deps = .error () ↔ name ∈ deps) ∧
    (∀ r', ra_set_name name rels deps = .ok r' →
      (∀ d ∈ deps, name ∈ r' d) ∧ (∀ k, k ∉ deps → r' k = rels k)) :=
  ⟨ra_set_name_err deps name rels, fun r' h => ra_set_name_ok deps name rels r' h⟩

/-- Witness for C6: binding `x` with dependency list `["y"]` over an empty
registry succeeds and registers `x` under `y`. -/
theorem claim_c6_witness :
    ra_set_name "x" (fun _ => []) ["y"] = .ok demoRels ∧
    "x" ∈ demoRels "y" := by
  have h := (claim_c6 "x" (fun _ => []) ["y"]).2 demoRels rfl
  exact ⟨rfl, h.1 "y" (List.mem_singleton.mpr rfl)⟩

/-- Claim C8: Method wrapping fails (the ValidationError) exactly when the
value is not callable, or has no parameters, or its first parameter is not
the `self` parameter or carries a default, or some parameter after the
first lacks a default; and a successful wrap returns the callable
unchanged (pure validation, no other effect). -/
theorem claim_c8 {α : Type} (c : Bool) (ps : List Param) (fn : α) :
    (methodInit c ps fn = .error () ↔
      c = false ∨ ps = [] ∨
        ∃ p rest, ps = p :: rest ∧
          (p.name ≠ "self" ∨ p.has_default = true ∨
            ∃ q ∈ rest, q.has_default = false)) ∧
    (∀ g, methodInit c ps fn = .ok g → g = fn) :=
  ⟨methodInit_err_iff c ps fn, fun g h => methodInit_ok_val c ps fn g h⟩

/-- Witness for C8: a callable with single non-default parameter `self`
wraps to itself; a non-callable is rejected. -/
theorem claim_c8_witness :
    methodInit true [⟨"self", false⟩] (7 : Int) = .ok 7 ∧
    methodInit false ([] : List Param) (7 : Int) = .error () :=
  ⟨rfl, (claim_c8 false ([] : List Param) (7 : Int)).1.mpr (Or.inl rfl)⟩
